import Mathlib

/-!
Verification of the teaspoon time-series server: a shallow embedding of
`src/timeseries.rs`, `src/protocol.rs` and `src/server.rs` into Lean 4,
with theorems settling the specification claims.

Modelling conventions:
* `u128`/`usize`/`u64` timestamps, sizes and counters become `Nat`
  (with explicit `% 2 ^ w` or range hypotheses where width matters);
* `f64` record values become `ℚ` (the claims are about exact arithmetic
  means); the result of the one `f64` division that can be `0.0/0.0` is
  modelled by `F64`, which has an explicit `nan` point;
* `f64` values on the wire are carried as their 8-byte IEEE bit pattern
  (a `Nat < 2 ^ 64`), since the codec only moves the bytes;
* Rust strings on the wire are represented by their UTF-8 byte sequence
  (`List Nat`); bincode's UTF-8 re-validation is the identity on every
  byte sequence produced by encoding, which is all these claims need;
* a Rust panic (slice index out of bounds, `unwrap` on `Err`, division
  by zero on integers) is modelled as the `none` case of an outer
  `Option`.
-/

/-- `Record` from `timeseries.rs`: a point `(timestamp, value)`.
`timestamp` is a `u128` millisecond epoch, `value` an `f64`. -/
structure Record where
  timestamp : Nat
  value : ℚ
deriving DecidableEq, Repr

instance : Inhabited Record := ⟨⟨0, 0⟩⟩

/-- The sortedness invariant claimed for `TimeSeries.records`:
non-decreasing by `timestamp`. -/
def sortedByTs (l : List Record) : Prop :=
  l.Pairwise (fun a b => a.timestamp ≤ b.timestamp)

instance (l : List Record) : Decidable (sortedByTs l) :=
  List.instDecidablePairwise l

/-- `TimeSeries::add_point`: `self.records.push(r)` — the record is
appended at the end of the vector, whatever its timestamp. -/
def add_point (records : List Record) (r : Record) : List Record :=
  records ++ [r]

/-- Value of an `f64` computation that is either an exact rational or
the `NaN` produced by `0.0/0.0`. -/
inductive F64 where
  | num (q : ℚ)
  | nan
deriving DecidableEq, Repr

/-- `f64` division as it occurs in `avg`: the only division by zero the
code can reach is `0.0 / 0.0` (empty sum over an empty vector), which
IEEE 754 defines as `NaN`. -/
def fdiv (a : ℚ) (n : Nat) : F64 :=
  if n = 0 then F64.nan else F64.num (a / n)

/-- `TimeSeries::avg`: `records.iter().map(|x| x.value).sum::<f64>() /
records.len() as f64`.  No emptiness guard: on an empty series this is
`0.0 / 0.0`. -/
def avg (records : List Record) : F64 :=
  fdiv ((records.map (fun r => r.value)).sum) records.length

/-- The `while current_ts <= last_ts` loop body of
`TimeSeries::avg_interval`: filter the records strictly inside
`(current_ts - interval, current_ts)`, push the window mean when the
window is non-empty, step by `interval`. -/
def windows (records : List Record) (interval : Nat) (hpos : 0 < interval)
    (current_ts last_ts : Nat) : List ℚ :=
  if h : current_ts ≤ last_ts then
    let range := (records.filter (fun v =>
      decide (current_ts - interval < v.timestamp) &&
      decide (v.timestamp < current_ts))).map (fun r => r.value)
    (if range.length > 0 then [range.sum / (range.length : ℚ)] else []) ++
      windows records interval hpos (current_ts + interval) last_ts
  else []
termination_by last_ts + 1 - current_ts
decreasing_by omega

/-- `TimeSeries::avg_interval`.  On an empty series returns `None`
(inner `none`); with `interval = 0` the very first `u128` division
`first.timestamp / interval` panics (outer `none`).  Otherwise the
window walk starts at the first record's timestamp rounded down to a
multiple of `interval` and stops at the last record's rounded-up
boundary. -/
def avg_interval (records : List Record) (interval : Nat) :
    Option (Option (List ℚ)) :=
  match records.head? with
  | none => some none
  | some first =>
    if h : interval = 0 then none
    else
      let first_ts := first.timestamp / interval * interval
      let last := records.getLastD default
      let last_ts := last.timestamp / interval * interval + interval
      some (some (windows records interval (Nat.pos_of_ne_zero h)
        (first_ts + interval) last_ts))

/-- The comparator passed to `binary_search_by` in `TimeSeries::search`:
`r.timestamp.cmp(&val).then(Ordering::Greater)`. -/
def cmpRecTs (val : Nat) (r : Record) : Ordering :=
  (compare r.timestamp val).then Ordering.gt

/-- The `while size > 1` loop of Rust's `slice::binary_search_by`
(std of the source's era): halve the search window, moving `base` to
`mid` unless the comparator answers `Greater`. -/
def bsLoop (f : Record → Ordering) (l : List Record) (base size : Nat) : Nat :=
  if h : 1 < size then
    bsLoop f l
      (if f (l.getD (base + size / 2) default) = Ordering.gt then base
       else base + size / 2) (size - size / 2)
  else base
termination_by size
decreasing_by omega

/-- Rust's `slice::binary_search_by`: `Err 0` on the empty slice, else
run `bsLoop` from `(0, len)` and decide on the final element. -/
def binary_search_by (f : Record → Ordering) (l : List Record) :
    Except Nat Nat :=
  if l.length = 0 then Except.error 0
  else
    match f (l.getD (bsLoop f l 0 l.length) default) with
    | Ordering.eq => Except.ok (bsLoop f l 0 l.length)
    | Ordering.lt => Except.error (bsLoop f l 0 l.length + 1)
    | Ordering.gt => Except.error (bsLoop f l 0 l.length)

/-- `TimeSeries::search`: binary search with the never-`Equal`
comparator `cmpRecTs`.  `Except.error` is Rust's `Err`. -/
def search (records : List Record) (val : Nat) : Except Nat Nat :=
  binary_search_by (cmpRecTs val) records

/-- `TimeSeries::range`: `None` on an empty series, otherwise
`records[start..end+1].to_vec()` with `start = search(lo).unwrap_err()`
and `end = search(hi).unwrap_err()`.  The outer `Option` is panic:
`unwrap_err` on an `Ok` and an out-of-bounds slice both abort. -/
def range (records : List Record) (lo hi : Nat) :
    Option (Option (List Record)) :=
  if records.length = 0 then some none
  else
    match search records lo, search records hi with
    | Except.error start, Except.error e =>
      if start ≤ e + 1 ∧ e + 1 ≤ records.length then
        some (some ((records.drop start).take (e + 1 - start)))
      else none
    | _, _ => none

/-! ## Protocol codec (`protocol.rs`)

`bincode`'s legacy `serialize`/`deserialize` functions use fixed-width
little-endian integers (`usize` as 8 bytes), length-prefixed strings
and sequences (`u64` count), and allow trailing bytes on deserialize. -/

/-- `OpCode` from `protocol.rs`. -/
inductive OpCode where
  | opTsCreate
  | opTsDelete
  | opTsAddPoint
  | opTsMaddPoint
  | opTsQuery
deriving DecidableEq, Repr

/-- `impl AsOpcode for u8`: opcodes 0–4, anything else is `None`. -/
def as_opcode (b : Nat) : Option OpCode :=
  match b with
  | 0 => some OpCode.opTsCreate
  | 1 => some OpCode.opTsDelete
  | 2 => some OpCode.opTsAddPoint
  | 3 => some OpCode.opTsMaddPoint
  | 4 => some OpCode.opTsQuery
  | _ => none

/-- `TsHeader`: a packed status/opcode byte and a `usize` payload size. -/
structure TsHeader where
  byte : Nat
  size : Nat
deriving DecidableEq, Repr

/-- `TsHeader::opcode`: `(self.byte >> 4).as_opcode()`. -/
def TsHeader.opcode (h : TsHeader) : Option OpCode :=
  as_opcode (h.byte / 2 ^ 4)

/-- Little-endian byte encoding of `n` on `k` bytes (bincode fixint). -/
def leBytes : Nat → Nat → List Nat
  | 0, _ => []
  | k + 1, n => n % 256 :: leBytes k (n / 256)

/-- Value of a little-endian byte sequence. -/
def leVal : List Nat → Nat
  | [] => 0
  | b :: bs => b % 256 + 256 * leVal bs

/-- bincode deserializer errors reachable in this model: reading past
the end of the input (`io::ErrorKind::UnexpectedEof`). -/
inductive BErr where
  | eof
deriving DecidableEq, Repr

/-- Errors of `TsPacket::from_binary`: the explicit
`Custom("Not enough bytes")` guard, or a bincode error. -/
inductive DecErr where
  | notEnoughBytes
  | bincode (e : BErr)
deriving DecidableEq, Repr

deriving instance DecidableEq for Except

/-- Read exactly `k` raw bytes, returning them and the rest. -/
def readBytes (k : Nat) (b : List Nat) :
    Except BErr (List Nat × List Nat) :=
  if k ≤ b.length then Except.ok (b.take k, b.drop k) else Except.error BErr.eof

/-- Read a `k`-byte little-endian unsigned integer. -/
def readUle (k : Nat) (b : List Nat) : Except BErr (Nat × List Nat) :=
  match readBytes k b with
  | Except.ok (bs, rest) => Except.ok (leVal bs, rest)
  | Except.error e => Except.error e

/-- bincode encoding of `TsHeader` (`u8` + `usize` as `u64`): 9 bytes. -/
def encHeader (h : TsHeader) : List Nat :=
  leBytes 1 h.byte ++ leBytes 8 h.size

/-- bincode decoding of `TsHeader`. -/
def decHeader (b : List Nat) : Except BErr (TsHeader × List Nat) :=
  match readUle 1 b with
  | Except.error e => Except.error e
  | Except.ok (byte, r1) =>
    match readUle 8 r1 with
    | Except.error e => Except.error e
    | Except.ok (size, r2) => Except.ok (⟨byte, size⟩, r2)

/-- bincode encoding of a `String`: `u64` byte length + UTF-8 bytes. -/
def encString (s : List Nat) : List Nat :=
  leBytes 8 s.length ++ s

/-- bincode decoding of a `String` (names are carried as their UTF-8
byte sequences, see the header comment). -/
def decString (b : List Nat) : Except BErr (List Nat × List Nat) :=
  match readUle 8 b with
  | Except.error e => Except.error e
  | Except.ok (n, r1) =>
    match readBytes n r1 with
    | Except.error e => Except.error e
    | Except.ok (s, r2) => Except.ok (s, r2)

/-- bincode encoding of an `i32`: 4 bytes little-endian two's
complement (`%` on `Int` is the nonnegative Euclidean remainder). -/
def encI32 (z : Int) : List Nat :=
  leBytes 4 (z % 2 ^ 32).toNat

/-- bincode decoding of an `i32`. -/
def decI32 (b : List Nat) : Except BErr (Int × List Nat) :=
  match readUle 4 b with
  | Except.error e => Except.error e
  | Except.ok (v, r) =>
    Except.ok (if v < 2 ^ 31 then (v : Int) else (v : Int) - 2 ^ 32, r)

/-- `TsCreate` payload: `{ name: String, retention: i32 }`. -/
structure TsCreate where
  name : List Nat
  retention : Int
deriving DecidableEq, Repr

/-- `TsDelete` payload: `{ name: String }`. -/
structure TsDelete where
  name : List Nat
deriving DecidableEq, Repr

/-- Modelled from the spec: `protocol.rs` declares no payload struct
for `AddPoint`; §6 gives `AddPoint`: UTF-8 name + 64-bit float value.
The value is its 8-byte IEEE bit pattern. -/
structure TsAddPoint where
  name : List Nat
  value : Nat
deriving DecidableEq, Repr

/-- Modelled from the spec: `protocol.rs` declares no payload struct
for `MultiAddPoint`; §6 gives UTF-8 name + count-prefixed sequence of
64-bit float values (bit patterns). -/
structure TsMaddPoint where
  name : List Nat
  values : List Nat
deriving DecidableEq, Repr

/-- Modelled from the spec: §6 leaves the `Query` parameter encoding
open ("query-kind discriminant + kind-specific parameters (e.g.
interval width, or lo/hi bounds)"); modelled as a one-byte
discriminant selecting a windowed average (interval width) or a range
(lo/hi bounds), parameters as unsigned 64-bit values. -/
inductive QueryKind where
  | avgWindow (interval : Nat)
  | range (lo hi : Nat)
deriving DecidableEq, Repr

/-- Modelled from the spec: `Query` payload, UTF-8 name + kind. -/
structure TsQuery where
  name : List Nat
  kind : QueryKind
deriving DecidableEq, Repr

def encCreate (p : TsCreate) : List Nat :=
  encString p.name ++ encI32 p.retention

def decCreate (b : List Nat) : Except BErr (TsCreate × List Nat) :=
  match decString b with
  | Except.error e => Except.error e
  | Except.ok (name, r1) =>
    match decI32 r1 with
    | Except.error e => Except.error e
    | Except.ok (ret, r2) => Except.ok (⟨name, ret⟩, r2)

def encDelete (p : TsDelete) : List Nat :=
  encString p.name

def decDelete (b : List Nat) : Except BErr (TsDelete × List Nat) :=
  match decString b with
  | Except.error e => Except.error e
  | Except.ok (name, r1) => Except.ok (⟨name⟩, r1)

def encAddPoint (p : TsAddPoint) : List Nat :=
  encString p.name ++ leBytes 8 p.value

def decAddPoint (b : List Nat) : Except BErr (TsAddPoint × List Nat) :=
  match decString b with
  | Except.error e => Except.error e
  | Except.ok (name, r1) =>
    match readUle 8 r1 with
    | Except.error e => Except.error e
    | Except.ok (v, r2) => Except.ok (⟨name, v⟩, r2)

/-- Read `m` consecutive 64-bit values (a bincode `Vec<f64>` body). -/
def readVals : Nat → List Nat → Except BErr (List Nat × List Nat)
  | 0, b => Except.ok ([], b)
  | m + 1, b =>
    match readUle 8 b with
    | Except.error e => Except.error e
    | Except.ok (v, r1) =>
      match readVals m r1 with
      | Except.error e => Except.error e
      | Except.ok (vs, r2) => Except.ok (v :: vs, r2)

def encMaddPoint (p : TsMaddPoint) : List Nat :=
  encString p.name ++ leBytes 8 p.values.length ++
    (p.values.map (leBytes 8)).flatten

def decMaddPoint (b : List Nat) : Except BErr (TsMaddPoint × List Nat) :=
  match decString b with
  | Except.error e => Except.error e
  | Except.ok (name, r1) =>
    match readUle 8 r1 with
    | Except.error e => Except.error e
    | Except.ok (m, r2) =>
      match readVals m r2 with
      | Except.error e => Except.error e
      | Except.ok (vs, r3) => Except.ok (⟨name, vs⟩, r3)

def encQueryKind : QueryKind → List Nat
  | QueryKind.avgWindow i => leBytes 1 0 ++ leBytes 8 i
  | QueryKind.range lo hi => leBytes 1 1 ++ leBytes 8 lo ++ leBytes 8 hi

def decQueryKind (b : List Nat) : Except BErr (QueryKind × List Nat) :=
  match readUle 1 b with
  | Except.error e => Except.error e
  | Except.ok (d, r1) =>
    if d = 0 then
      match readUle 8 r1 with
      | Except.error e => Except.error e
      | Except.ok (i, r2) => Except.ok (QueryKind.avgWindow i, r2)
    else
      match readUle 8 r1 with
      | Except.error e => Except.error e
      | Except.ok (lo, r2) =>
        match readUle 8 r2 with
        | Except.error e => Except.error e
        | Except.ok (hi, r3) => Except.ok (QueryKind.range lo hi, r3)

def encQuery (p : TsQuery) : List Nat :=
  encString p.name ++ encQueryKind p.kind

def decQuery (b : List Nat) : Except BErr (TsQuery × List Nat) :=
  match decString b with
  | Except.error e => Except.error e
  | Except.ok (name, r1) =>
    match decQueryKind r1 with
    | Except.error e => Except.error e
    | Except.ok (k, r2) => Except.ok (⟨name, k⟩, r2)

/-- The five command payloads of the protocol, one per opcode. -/
inductive TsCommand where
  | create (p : TsCreate)
  | delete (p : TsDelete)
  | addPoint (p : TsAddPoint)
  | maddPoint (p : TsMaddPoint)
  | query (p : TsQuery)
deriving DecidableEq, Repr

/-- Opcode of a command (§6: 0=Create, 1=Delete, 2=AddPoint,
3=MultiAddPoint, 4=Query). -/
def cmdTag : TsCommand → Nat
  | TsCommand.create _ => 0
  | TsCommand.delete _ => 1
  | TsCommand.addPoint _ => 2
  | TsCommand.maddPoint _ => 3
  | TsCommand.query _ => 4

/-- Payload encoder of a command. -/
def encCmd : TsCommand → List Nat
  | TsCommand.create p => encCreate p
  | TsCommand.delete p => encDelete p
  | TsCommand.addPoint p => encAddPoint p
  | TsCommand.maddPoint p => encMaddPoint p
  | TsCommand.query p => encQuery p

/-- Payload decoder selected by opcode (the Rust caller picks the
concrete `T` of `TsPacket<T>`; opcodes ≥ 5 have no payload type). -/
def cmdDecoder (tag : Nat) (b : List Nat) :
    Except BErr (TsCommand × List Nat) :=
  match tag with
  | 0 => match decCreate b with
    | Except.error e => Except.error e
    | Except.ok (p, r) => Except.ok (TsCommand.create p, r)
  | 1 => match decDelete b with
    | Except.error e => Except.error e
    | Except.ok (p, r) => Except.ok (TsCommand.delete p, r)
  | 2 => match decAddPoint b with
    | Except.error e => Except.error e
    | Except.ok (p, r) => Except.ok (TsCommand.addPoint p, r)
  | 3 => match decMaddPoint b with
    | Except.error e => Except.error e
    | Except.ok (p, r) => Except.ok (TsCommand.maddPoint p, r)
  | _ => match decQuery b with
    | Except.error e => Except.error e
    | Except.ok (p, r) => Except.ok (TsCommand.query p, r)

/-- `TsPacket<T>`: header plus payload. -/
structure TsPacket (α : Type) where
  header : TsHeader
  packet : α
deriving DecidableEq, Repr

/-- `TsPacket::to_binary`: serialized header followed by serialized
payload. -/
def to_binary (enc : α → List Nat) (p : TsPacket α) : List Nat :=
  encHeader p.header ++ enc p.packet

/-- `TsPacket::from_binary`: reject fewer than 9 bytes with the custom
"Not enough bytes" error, deserialize the header from `b[..9]` and the
payload from `b[9..]` (the header's `size` field is never consulted). -/
def from_binary (dec : List Nat → Except BErr (α × List Nat))
    (b : List Nat) : Except DecErr (TsPacket α) :=
  if b.length < 9 then Except.error DecErr.notEnoughBytes
  else
    match decHeader (b.take 9) with
    | Except.error e => Except.error (DecErr.bincode e)
    | Except.ok (h, _) =>
      match dec (b.drop 9) with
      | Except.error e => Except.error (DecErr.bincode e)
      | Except.ok (p, _) => Except.ok ⟨h, p⟩

/-- Field-width validity of a header (`u8` byte, `usize` size). -/
def validHeader (h : TsHeader) : Prop :=
  h.byte < 2 ^ 8 ∧ h.size < 2 ^ 64

/-- Field-width validity of a command payload (string and sequence
lengths fit `u64`, retention fits `i32`, float bit patterns fit 8
bytes). -/
def validCmd : TsCommand → Prop
  | TsCommand.create p =>
    p.name.length < 2 ^ 64 ∧ -2 ^ 31 ≤ p.retention ∧ p.retention < 2 ^ 31
  | TsCommand.delete p => p.name.length < 2 ^ 64
  | TsCommand.addPoint p => p.name.length < 2 ^ 64 ∧ p.value < 2 ^ 64
  | TsCommand.maddPoint p =>
    p.name.length < 2 ^ 64 ∧ p.values.length < 2 ^ 64 ∧
      ∀ v ∈ p.values, v < 2 ^ 64
  | TsCommand.query p =>
    p.name.length < 2 ^ 64 ∧
      match p.kind with
      | QueryKind.avgWindow i => i < 2 ^ 64
      | QueryKind.range lo hi => lo < 2 ^ 64 ∧ hi < 2 ^ 64

/-- "Need more bytes" class of decode outcomes: the explicit short-input
guard, or bincode running out of input. -/
def needMore (r : Except DecErr (TsPacket α)) : Prop :=
  r = Except.error DecErr.notEnoughBytes ∨
    r = Except.error (DecErr.bincode BErr.eof)

/-! ## Reactor (`server.rs`)

Only the per-connection failure handling is modelled: the connection
table is a list of `(token, client buffer)` pairs, and the `Option`
result is `none` when the process panics. -/

/-- Socket-level I/O outcomes distinguished by the code. -/
inductive IoErrKind where
  | wouldBlock
  | other
deriving DecidableEq, Repr

/-- Look a token up in the connection table. -/
def lookupConn (conns : List (Nat × List Nat)) (tok : Nat) :
    Option (List Nat) :=
  match conns with
  | [] => none
  | (t, c) :: rest => if t = tok then some c else lookupConn rest tok

/-- The writable branch of `Server::run`:
`self.connections.get_mut(&token).unwrap()` panics on a missing token,
and `client.send().unwrap()` panics on ANY `Err` from
`stream.write_all` — would-block included.  On `Ok` the connection is
kept (and re-registered for reads); it is never removed here. -/
def handleWritable (conns : List (Nat × List Nat)) (tok : Nat)
    (sendResult : Except IoErrKind Unit) :
    Option (List (Nat × List Nat)) :=
  match lookupConn conns tok with
  | none => none
  | some _ =>
    match sendResult with
    | Except.ok _ => some conns
    | Except.error _ => none

/-- The readable branch of `Server::run` when `stream.read` returns an
`Err`: both the would-block case and every other error kind just
`break` out of the drain loop — the connection is left in the table
either way (only a 0-byte read removes it). -/
def handleReadError (conns : List (Nat × List Nat)) (tok : Nat)
    (e : IoErrKind) : List (Nat × List Nat) :=
  match e with
  | IoErrKind.wouldBlock => conns
  | IoErrKind.other => conns

/-! ## Lemmas about the binary search comparator -/

theorem cmpRecTs_lt_iff (val : Nat) (r : Record) :
    cmpRecTs val r = Ordering.lt ↔ r.timestamp < val := by
  unfold cmpRecTs
  rcases Nat.lt_trichotomy r.timestamp val with h | h | h
  · rw [Nat.compare_eq_lt.2 h]
    simp [Ordering.then, h]
  · rw [Nat.compare_eq_eq.2 h]
    simp [Ordering.then]
    omega
  · rw [Nat.compare_eq_gt.2 h]
    simp [Ordering.then]
    omega

theorem cmpRecTs_ne_eq (val : Nat) (r : Record) :
    cmpRecTs val r ≠ Ordering.eq := by
  unfold cmpRecTs
  rcases Nat.lt_trichotomy r.timestamp val with h | h | h
  · rw [Nat.compare_eq_lt.2 h]; simp [Ordering.then]
  · rw [Nat.compare_eq_eq.2 h]; simp [Ordering.then]
  · rw [Nat.compare_eq_gt.2 h]; simp [Ordering.then]

/-- On a timestamp-sorted list, the records with timestamp strictly
below `v` are exactly the first `countP` entries. -/
theorem sorted_getD_lt_iff (l : List Record) (v : Nat) (hs : sortedByTs l) :
    ∀ i, i < l.length →
      ((l.getD i default).timestamp < v ↔
        i < l.countP (fun r => decide (r.timestamp < v))) := by
  induction l with
  | nil => intro i hi; simp at hi
  | cons x xs ih =>
    rw [sortedByTs, List.pairwise_cons] at hs
    obtain ⟨hx, hxs⟩ := hs
    have ih2 := ih hxs
    intro i hi
    by_cases hpx : x.timestamp < v
    · rcases i with _ | j
      · simp [List.countP_cons, hpx]
      · rw [List.getD_cons_succ]
        have hj := ih2 j (by simpa using hi)
        rw [hj, List.countP_cons]
        simp [hpx]
    · have hall : (x :: xs).countP (fun r => decide (r.timestamp < v)) = 0 := by
        rw [List.countP_eq_zero]
        intro a ha
        simp only [decide_eq_true_eq]
        rcases List.mem_cons.1 ha with h | h
        · subst h; omega
        · have := hx a h; omega
      rw [hall]
      simp only [Nat.not_lt_zero, iff_false]
      have hmem : (x :: xs).getD i default ∈ x :: xs := by
        rw [List.getD_eq_getElem?_getD, List.getElem?_eq_getElem hi]
        exact List.getElem_mem hi
      have := List.countP_eq_zero.1 hall _ hmem
      simpa using this

/-- Invariant of the `binary_search_by` halving loop: started anywhere
around the partition point `k`, it lands on `k - 1` or `k`. -/
theorem bsLoop_spec (l : List Record) (v k : Nat)
    (hk : ∀ i, i < l.length →
      (cmpRecTs v (l.getD i default) = Ordering.lt ↔ i < k)) :
    ∀ size base, 0 < size → base + size ≤ l.length → base ≤ k →
      k ≤ base + size →
      bsLoop (cmpRecTs v) l base size ≤ k ∧
        k ≤ bsLoop (cmpRecTs v) l base size + 1 ∧
        bsLoop (cmpRecTs v) l base size < l.length := by
  intro size
  induction size using Nat.strong_induction_on with
  | _ size ih =>
    intro base hpos hlen hbk hkb
    unfold bsLoop
    by_cases h1 : 1 < size
    · simp only [dif_pos h1]
      by_cases hc : cmpRecTs v (l.getD (base + size / 2) default) = Ordering.gt
      · rw [if_pos hc]
        have hklemid : k ≤ base + size / 2 := by
          by_contra hcon
          push_neg at hcon
          have hlt := (hk (base + size / 2) (by omega)).2 hcon
          rw [hc] at hlt
          cases hlt
        exact ih (size - size / 2) (by omega) base (by omega) (by omega)
          hbk (by omega)
      · rw [if_neg hc]
        have hlt : cmpRecTs v (l.getD (base + size / 2) default) =
            Ordering.lt := by
          cases hcc : cmpRecTs v (l.getD (base + size / 2) default) with
          | lt => rfl
          | eq => exact absurd hcc (cmpRecTs_ne_eq v _)
          | gt => exact absurd hcc hc
        have hmidk : base + size / 2 < k := (hk _ (by omega)).1 hlt
        exact ih (size - size / 2) (by omega) (base + size / 2) (by omega)
          (by omega) (by omega) (by omega)
    · simp only [dif_neg h1]
      exact ⟨hbk, by omega, by omega⟩

/-- On a timestamp-sorted list `search` answers `Err k` where `k`
counts the records with timestamp strictly below the query — the first
index whose timestamp is `≥` the query. -/
theorem search_sorted_eq (l : List Record) (v : Nat) (hs : sortedByTs l) :
    search l v =
      Except.error (l.countP (fun r => decide (r.timestamp < v))) := by
  unfold search binary_search_by
  by_cases h0 : l.length = 0
  · rw [if_pos h0]
    have : l = [] := List.length_eq_zero.1 h0
    subst this
    simp
  · rw [if_neg h0]
    have hk : ∀ i, i < l.length →
        (cmpRecTs v (l.getD i default) = Ordering.lt ↔
          i < l.countP (fun r => decide (r.timestamp < v))) := by
      intro i hi
      rw [cmpRecTs_lt_iff]
      exact sorted_getD_lt_iff l v hs i hi
    have hkle : l.countP (fun r => decide (r.timestamp < v)) ≤ l.length :=
      List.countP_le_length _
    obtain ⟨hb1, hb2, hb3⟩ := bsLoop_spec l v _ hk l.length 0 (by omega)
      (by omega) (by omega) (by omega)
    cases hc : cmpRecTs v (l.getD (bsLoop (cmpRecTs v) l 0 l.length) default) with
    | eq => exact absurd hc (cmpRecTs_ne_eq v _)
    | lt =>
      have := (hk _ hb3).1 hc
      show Except.error (bsLoop (cmpRecTs v) l 0 l.length + 1) =
        Except.error (List.countP (fun r => decide (r.timestamp < v)) l)
      congr 1
      omega
    | gt =>
      have hnlt : ¬ (bsLoop (cmpRecTs v) l 0 l.length <
          l.countP (fun r => decide (r.timestamp < v))) := by
        intro hcon
        have := (hk _ hb3).2 hcon
        rw [hc] at this
        cases this
      show Except.error (bsLoop (cmpRecTs v) l 0 l.length) =
        Except.error (List.countP (fun r => decide (r.timestamp < v)) l)
      congr 1
      omega

/-- `search` can never answer `Ok`: the comparator maps equal
timestamps to `Greater`, so it never returns `Equal`. -/
theorem search_never_ok (l : List Record) (v i : Nat) :
    search l v ≠ Except.ok i := by
  unfold search binary_search_by
  by_cases h0 : l.length = 0
  · simp [h0]
  · rw [if_neg h0]
    cases hc : cmpRecTs v (l.getD (bsLoop (cmpRecTs v) l 0 l.length) default) with
    | eq => exact absurd hc (cmpRecTs_ne_eq v _)
    | lt => simp
    | gt => simp

/-! ## Slicing a sorted list between two insertion points -/

/-- For a predicate downward closed along timestamps, taking `countP`
elements of a sorted list is filtering. -/
theorem sorted_take_countP (p : Record → Bool)
    (hmono : ∀ a b : Record, a.timestamp ≤ b.timestamp → p b = true →
      p a = true) :
    ∀ l : List Record, sortedByTs l → l.take (l.countP p) = l.filter p := by
  intro l
  induction l with
  | nil => intro hs; simp
  | cons x xs ih =>
    intro hs
    rw [sortedByTs, List.pairwise_cons] at hs
    obtain ⟨hx, hxs⟩ := hs
    cases hpx : p x with
    | true =>
      have h1 : (x :: xs).countP p = xs.countP p + 1 := by
        simp [List.countP_cons, hpx]
      rw [h1, List.take_succ_cons, List.filter_cons_of_pos hpx, ih hxs]
    | false =>
      have hzero : xs.countP p = 0 := by
        rw [List.countP_eq_zero]
        intro a ha hpa
        have := hmono x a (hx a ha) hpa
        rw [hpx] at this
        cases this
      have h1 : (x :: xs).countP p = 0 := by
        simp [List.countP_cons, hpx, hzero]
      rw [h1, List.take_zero, List.filter_cons_of_neg (by simp [hpx])]
      symm
      rw [List.filter_eq_nil_iff]
      exact List.countP_eq_zero.1 hzero

/-- Companion: dropping `countP` elements of a sorted list filters with
the negated predicate. -/
theorem sorted_drop_countP (p : Record → Bool)
    (hmono : ∀ a b : Record, a.timestamp ≤ b.timestamp → p b = true →
      p a = true) :
    ∀ l : List Record, sortedByTs l →
      l.drop (l.countP p) = l.filter (fun r => ! p r) := by
  intro l
  induction l with
  | nil => intro hs; simp
  | cons x xs ih =>
    intro hs
    rw [sortedByTs, List.pairwise_cons] at hs
    obtain ⟨hx, hxs⟩ := hs
    cases hpx : p x with
    | true =>
      have h1 : (x :: xs).countP p = xs.countP p + 1 := by
        simp [List.countP_cons, hpx]
      rw [h1, List.drop_succ_cons, ih hxs,
        List.filter_cons_of_neg (by simp [hpx])]
    | false =>
      have hzero : xs.countP p = 0 := by
        rw [List.countP_eq_zero]
        intro a ha hpa
        have := hmono x a (hx a ha) hpa
        rw [hpx] at this
        cases this
      have h1 : (x :: xs).countP p = 0 := by
        simp [List.countP_cons, hpx, hzero]
      rw [h1, List.drop_zero, List.filter_cons_of_pos (by simp [hpx])]
      congr 1
      symm
      rw [List.filter_eq_self]
      intro a ha
      have hna := List.countP_eq_zero.1 hzero a ha
      simp only [Bool.not_eq_true] at hna ⊢
      simp [hna]

theorem lastRecord_mem (l : List Record) (h : l ≠ []) :
    l.getLastD default ∈ l := by
  rw [List.getLastD_eq_getLast?, List.getLast?_eq_getLast l h]
  exact List.getLast_mem h

/-- What the slice `records[start..end+1]` actually contains on a
sorted non-empty series when `lo ≤ hi` and `hi` does not exceed the
last timestamp: the records with `lo ≤ timestamp < hi` followed by the
first record whose timestamp is `≥ hi`. -/
theorem range_eq_filter (l : List Record) (lo hi : Nat) (hs : sortedByTs l)
    (hne : l ≠ []) (hlohi : lo ≤ hi)
    (hhi : hi ≤ (l.getLastD default).timestamp) :
    range l lo hi = some (some
      (l.filter (fun r => decide (lo ≤ r.timestamp ∧ r.timestamp < hi)) ++
        [l.getD (l.countP (fun r => decide (r.timestamp < hi))) default])) := by
  have hlen0 : ¬ l.length = 0 := by
    intro h
    exact hne (List.length_eq_zero.1 h)
  have hslo := search_sorted_eq l lo hs
  have hshi := search_sorted_eq l hi hs
  set s := l.countP (fun r => decide (r.timestamp < lo)) with hs_def
  set t := l.countP (fun r => decide (r.timestamp < hi)) with ht_def
  have hst : s ≤ t := by
    apply List.countP_mono_left
    intro x _ hx
    simp only [decide_eq_true_eq] at hx ⊢
    omega
  have htlen : t < l.length := by
    rcases Nat.lt_or_ge t l.length with h | h
    · exact h
    · exfalso
      have hle : t ≤ l.length := List.countP_le_length _
      have hteq : t = l.length := Nat.le_antisymm hle h
      have hall := List.countP_eq_length.1 hteq
      have hlast := hall _ (lastRecord_mem l hne)
      simp only [decide_eq_true_eq] at hlast
      omega
  unfold range
  rw [if_neg hlen0, hslo, hshi]
  show (if s ≤ t + 1 ∧ t + 1 ≤ l.length then
      some (some ((l.drop s).take (t + 1 - s))) else none) = _
  rw [if_pos ⟨by omega, by omega⟩]
  have hmono_hi : ∀ a b : Record, a.timestamp ≤ b.timestamp →
      decide (b.timestamp < hi) = true → decide (a.timestamp < hi) = true := by
    intro a b hab hb
    simp only [decide_eq_true_eq] at hb ⊢
    omega
  have hmono_lo : ∀ a b : Record, a.timestamp ≤ b.timestamp →
      decide (b.timestamp < lo) = true → decide (a.timestamp < lo) = true := by
    intro a b hab hb
    simp only [decide_eq_true_eq] at hb ⊢
    omega
  have htake : l.take t = l.filter (fun r => decide (r.timestamp < hi)) :=
    sorted_take_countP _ hmono_hi l hs
  have hslice : (l.drop s).take (t + 1 - s) = (l.take (t + 1)).drop s :=
    (List.drop_take (t + 1) s l).symm
  have htsucc : l.take (t + 1) = l.take t ++ [l.getD t default] := by
    rw [List.take_succ]
    congr 1
    rw [List.getD_eq_getElem?_getD, List.getElem?_eq_getElem htlen]
    rfl
  have hlen_take : (l.take t).length = t := by
    rw [List.length_take]
    omega
  rw [hslice, htsucc, List.drop_append_eq_append_drop, hlen_take]
  have hst0 : s - t = 0 := by omega
  rw [hst0, List.drop_zero]
  congr 2
  rw [htake]
  have hcount_s : s = (l.filter (fun r => decide (r.timestamp < hi))).countP
      (fun r => decide (r.timestamp < lo)) := by
    rw [List.countP_filter]
    apply List.countP_congr
    intro x _
    simp only [Bool.and_eq_true, decide_eq_true_eq]
    omega
  have hsorted_f :
      sortedByTs (l.filter (fun r => decide (r.timestamp < hi))) := by
    rw [sortedByTs] at hs ⊢
    exact hs.filter _
  rw [hcount_s, sorted_drop_countP _ hmono_lo _ hsorted_f,
    List.filter_filter]
  congr 1
  apply List.filter_congr
  intro x _
  by_cases h1 : x.timestamp < lo
  all_goals by_cases h2 : x.timestamp < hi
  all_goals simp [h1, h2]
  all_goals omega

/-! ## Claims about the storage engine -/

/-- C1 (counterexample): `add_point` merely appends.  Inserting a point
with timestamp 10 and then one with timestamp 5 leaves the later point
at the end, so the record sequence is NOT sorted non-decreasing by
timestamp — the out-of-order point is not placed at its sorted
position. -/
theorem c1_counterexample :
    add_point (add_point [] ⟨10, 1⟩) ⟨5, 2⟩ = [⟨10, 1⟩, ⟨5, 2⟩] ∧
      ¬ sortedByTs (add_point (add_point [] ⟨10, 1⟩) ⟨5, 2⟩) := by
  constructor
  · rfl
  · decide

/-- C1 (amended): `add_point` appends the record at the end of the
sequence; the result is sorted non-decreasing by timestamp exactly when
the series was sorted and the new timestamp is `≥` every timestamp
already present — i.e. sortedness is preserved only for arrival in
non-decreasing timestamp order, and an out-of-order point is merely
appended. -/
theorem c1_add_point_appends (l : List Record) (r : Record) :
    add_point l r = l ++ [r] ∧
      (sortedByTs (add_point l r) ↔
        sortedByTs l ∧ ∀ x ∈ l, x.timestamp ≤ r.timestamp) := by
  refine ⟨rfl, ?_⟩
  unfold add_point sortedByTs
  rw [List.pairwise_append]
  simp

/-- Witness for C1's amended statement at a concrete input. -/
theorem c1_add_point_appends_witness :
    sortedByTs (add_point [⟨1, 1⟩] ⟨2, 1⟩) :=
  (c1_add_point_appends [⟨1, 1⟩] ⟨2, 1⟩).2.mpr ⟨by decide, by decide⟩

/-- C2 (counterexample): on the sorted series with timestamps `[5, 7]`,
querying the existing timestamp 5 returns `Err 0` — the index OF the
matching record — not `Err 1`, the index immediately after it (which is
also the first index with timestamp strictly greater than 5). -/
theorem c2_counterexample :
    search [⟨5, 1⟩, ⟨7, 2⟩] 5 = Except.error 0 ∧
      (Except.error 0 : Except Nat Nat) ≠ Except.error 1 := by
  constructor
  · have h := search_sorted_eq [⟨5, 1⟩, ⟨7, 2⟩] 5 (by decide)
    simpa using h
  · intro h
    simp at h

/-- C2 (amended): `search` never returns `Ok`; on a sorted series it
returns `Err i` where `i` is the number of records with timestamp
strictly LESS than the query — the first index whose timestamp is `≥`
the query.  Querying an existing timestamp therefore yields the index
of the first matching record, not the index after the match. -/
theorem c2_search_semantics (l : List Record) (v : Nat) :
    (∀ i, search l v ≠ Except.ok i) ∧
      (sortedByTs l →
        search l v =
          Except.error (l.countP (fun r => decide (r.timestamp < v)))) :=
  ⟨fun i => search_never_ok l v i, fun hs => search_sorted_eq l v hs⟩

/-- Witness for C2's amended statement at a concrete input. -/
theorem c2_search_semantics_witness :
    search [⟨3, 1⟩, ⟨5, 2⟩, ⟨7, 3⟩] 5 = Except.error 1 := by
  have h := (c2_search_semantics [⟨3, 1⟩, ⟨5, 2⟩, ⟨7, 3⟩] 5).2 (by decide)
  simpa using h

/-- C3 (counterexample): on the sorted series with timestamps
`[10, 20]`, `range 0 15` returns BOTH records — including the record at
timestamp 20, which is outside `lo ≤ timestamp ≤ hi` — whereas the
records with `0 ≤ timestamp ≤ 15` are exactly `[⟨10, 1⟩]`. -/
theorem c3_counterexample :
    range [⟨10, 1⟩, ⟨20, 2⟩] 0 15 = some (some [⟨10, 1⟩, ⟨20, 2⟩]) ∧
      List.filter (fun r => decide (0 ≤ r.timestamp ∧ r.timestamp ≤ 15))
        [(⟨10, 1⟩ : Record), ⟨20, 2⟩] = [⟨10, 1⟩] := by
  constructor
  · have h := range_eq_filter [⟨10, 1⟩, ⟨20, 2⟩] 0 15 (by decide) (by decide)
      (by decide) (by decide)
    simpa using h
  · decide

/-- C3 (amended): on a sorted non-empty series with `lo ≤ hi ≤` the
last record's timestamp, `range lo hi` returns the records with
`lo ≤ timestamp < hi` followed by one extra record — the first whose
timestamp is `≥ hi`; it is a pure function of the series (so two calls
with no mutation in between agree definitionally), and on an empty
series it returns the explicit no-data result `none` rather than an
error. -/
theorem c3_range_characterization :
    (∀ (l : List Record) (lo hi : Nat), sortedByTs l → l ≠ [] →
      lo ≤ hi → hi ≤ (l.getLastD default).timestamp →
      range l lo hi = some (some
        (l.filter (fun r => decide (lo ≤ r.timestamp ∧ r.timestamp < hi)) ++
          [l.getD (l.countP (fun r => decide (r.timestamp < hi)))
            default]))) ∧
      ∀ lo hi, range [] lo hi = some none := by
  constructor
  · exact range_eq_filter
  · intro lo hi
    rfl

/-- Witness for C3's amended statement at a concrete input. -/
theorem c3_range_characterization_witness :
    range [⟨10, 1⟩, ⟨20, 2⟩, ⟨30, 3⟩] 15 25 =
      some (some [⟨20, 2⟩, ⟨30, 3⟩]) := by
  have h := c3_range_characterization.1 [⟨10, 1⟩, ⟨20, 2⟩, ⟨30, 3⟩] 15 25
    (by decide) (by decide) (by decide) (by decide)
  simpa using h

/-- C10 (counterexample): on the non-empty sorted series `[⟨10, 1⟩]`,
`range 0 20` panics: `search 20` answers `Err 1`, so the slice upper
index is `1 + 1 = 2 > 1 = len` and `records[0..2]` is out of bounds
(`none` is the panic of the model). -/
theorem c10_counterexample : range [⟨10, 1⟩] 0 20 = none := by
  have h1 := search_sorted_eq [⟨10, 1⟩] 0 (by decide)
  have h2 := search_sorted_eq [⟨10, 1⟩] 20 (by decide)
  simp only [List.countP_cons, List.countP_nil] at h1 h2
  norm_num at h1 h2
  rw [range, if_neg (by decide), h1, h2]
  norm_num

/-- C10 (amended): `range lo hi` on a non-empty sorted series returns
without panicking whenever `lo ≤ hi` and `hi` does not exceed the last
record's timestamp (then `search hi + 1 ≤ len`); when `hi` is strictly
greater than the last timestamp the slice upper index is `len + 1` and
the code panics. -/
theorem c10_range_no_panic (l : List Record) (lo hi : Nat)
    (hs : sortedByTs l) (hne : l ≠ []) (hlohi : lo ≤ hi)
    (hhi : hi ≤ (l.getLastD default).timestamp) :
    (range l lo hi).isSome := by
  rw [range_eq_filter l lo hi hs hne hlohi hhi]
  rfl

/-- Witness for C10's amended statement at a concrete input. -/
theorem c10_range_no_panic_witness :
    (range [⟨10, 1⟩] 0 10).isSome :=
  c10_range_no_panic [⟨10, 1⟩] 0 10 (by decide) (by decide) (by decide)
    (by decide)

/-! ## Evaluating the windowed average -/

theorem windows_stop (r : List Record) (i : Nat) (hp : 0 < i)
    (cur last : Nat) (h : ¬ cur ≤ last) : windows r i hp cur last = [] := by
  conv_lhs => unfold windows
  simp [h]

theorem windows_go (r : List Record) (i : Nat) (hp : 0 < i)
    (cur last : Nat) (h : cur ≤ last) :
    windows r i hp cur last =
      (if ((r.filter (fun v => decide (cur - i < v.timestamp) &&
          decide (v.timestamp < cur))).map (fun x => x.value)).length > 0 then
        [((r.filter (fun v => decide (cur - i < v.timestamp) &&
          decide (v.timestamp < cur))).map (fun x => x.value)).sum /
          (((r.filter (fun v => decide (cur - i < v.timestamp) &&
            decide (v.timestamp < cur))).map (fun x => x.value)).length : ℚ)]
      else []) ++ windows r i hp (cur + i) last := by
  conv_lhs => unfold windows
  simp [h]

/-- C4 (counterexample): records at the literal millisecond offsets
`{0: 12.98, 500: 19.63, 999: 11.28, 1500: 15.96}` with
`interval_ms = 500` do NOT yield the three window means
`(12.98), (15.455), (15.96)`: because both window bounds are strictly
exclusive, the records at 0, 500 and 1500 sit on window boundaries and
are counted by no window at all, so the result is the single mean
`[11.28]`. -/
theorem c4_counterexample :
    avg_interval [⟨0, 12.98⟩, ⟨500, 19.63⟩, ⟨999, 11.28⟩, ⟨1500, 15.96⟩]
        500 = some (some [11.28]) ∧
      ([(11.28 : ℚ)] : List ℚ) ≠ [12.98, 15.455, 15.96] := by
  constructor
  · rw [avg_interval]
    norm_num
    rw [windows_go _ _ _ _ _ (by norm_num), windows_go _ _ _ _ _ (by norm_num),
      windows_go _ _ _ _ _ (by norm_num), windows_go _ _ _ _ _ (by norm_num),
      windows_stop _ _ _ _ _ (by norm_num)]
    norm_num
  · intro h
    have := congrArg List.length h
    simp at this

/-- C4 (amended): `avg_interval` partitions time into consecutive
windows of width `interval` starting at the first record's timestamp
rounded down to a multiple of `interval`, both window bounds strictly
exclusive, and skips empty windows.  A base offset off the window grid
realises the intended example: records at
`{100: 12.98, 600: 19.63, 999: 11.28, 1600: 15.96}` with
`interval_ms = 500` yield exactly the three window means
`(12.98), (15.455), (15.96)` — the empty window `(1000, 1500)` is
skipped. -/
theorem c4_avg_interval_example :
    avg_interval [⟨100, 12.98⟩, ⟨600, 19.63⟩, ⟨999, 11.28⟩, ⟨1600, 15.96⟩]
      500 = some (some [12.98, 15.455, 15.96]) := by
  rw [avg_interval]
  norm_num
  rw [windows_go _ _ _ _ _ (by norm_num), windows_go _ _ _ _ _ (by norm_num),
    windows_go _ _ _ _ _ (by norm_num), windows_go _ _ _ _ _ (by norm_num),
    windows_stop _ _ _ _ _ (by norm_num)]
  norm_num

/-! ## Claims about `avg`, the opcodes and the reactor -/

/-- C8: `avg` has no error channel.  On the empty series it computes
`0.0 / 0.0`, the IEEE `NaN` — a numeric sentinel, not an explicit
error; on a non-empty series it is the exact arithmetic mean. -/
theorem c8_avg_empty_is_nan :
    avg [] = F64.nan ∧
      avg [⟨0, 3⟩, ⟨1, 5⟩] = F64.num 4 := by
  constructor
  · rfl
  · show fdiv ((3 : ℚ) + (5 + 0)) 2 = F64.num 4
    rw [fdiv]
    norm_num

/-- C7: the opcode space.  A header's opcode is decoded from the high
nibble of its packed byte; values 0–4 map to Create, Delete, AddPoint,
MultiAddPoint and Query respectively, and every other value is
rejected with the distinct `None` outcome (`TsUnknownCmd` in the status
enumeration). -/
theorem c7_opcode_mapping :
    (∀ h : TsHeader, h.opcode = as_opcode (h.byte / 2 ^ 4)) ∧
      as_opcode 0 = some OpCode.opTsCreate ∧
      as_opcode 1 = some OpCode.opTsDelete ∧
      as_opcode 2 = some OpCode.opTsAddPoint ∧
      as_opcode 3 = some OpCode.opTsMaddPoint ∧
      as_opcode 4 = some OpCode.opTsQuery ∧
      ∀ n : Nat, 4 < n → as_opcode n = none := by
  refine ⟨fun h => rfl, rfl, rfl, rfl, rfl, rfl, ?_⟩
  intro n hn
  match n, hn with
  | n + 5, _ => rfl

/-- Witness for C7 at a concrete unknown opcode. -/
theorem c7_opcode_mapping_witness : as_opcode 9 = none :=
  c7_opcode_mapping.2.2.2.2.2.2 9 (by norm_num)

/-- C9: in the writable branch, `client.send().unwrap()` panics the
WHOLE PROCESS on any `Err` from the socket write — would-block
included — instead of removing just that connection; and in the
readable branch an `Err` other than would-block merely `break`s,
leaving the connection in the table instead of removing it. -/
theorem c9_io_error_handling :
    (∀ (conns : List (Nat × List Nat)) (tok : Nat) (e : IoErrKind),
      lookupConn conns tok ≠ none →
      handleWritable conns tok (Except.error e) = none) ∧
      ∀ conns tok e, handleReadError conns tok e = conns := by
  constructor
  · intro conns tok e h
    unfold handleWritable
    cases hc : lookupConn conns tok with
    | none => exact absurd hc h
    | some c => rfl
  · intro conns tok e
    cases e <;> rfl

/-- Witness for C9 at a concrete connection table. -/
theorem c9_io_error_handling_witness :
    handleWritable [(1, [0])] 1 (Except.error IoErrKind.other) = none :=
  c9_io_error_handling.1 [(1, [0])] 1 IoErrKind.other (by decide)

/-! ## Round trip of the bincode primitives -/

theorem length_leBytes (k n : Nat) : (leBytes k n).length = k := by
  induction k generalizing n with
  | zero => rfl
  | succ k ih => simp [leBytes, ih]

theorem leVal_leBytes (k n : Nat) : leVal (leBytes k n) = n % 256 ^ k := by
  induction k generalizing n with
  | zero => simp [leBytes, leVal, Nat.mod_one]
  | succ k ih =>
    simp only [leBytes, leVal, ih]
    rw [pow_succ', Nat.mod_mul, Nat.mod_mod]

theorem readBytes_exact (xs rest : List Nat) :
    readBytes xs.length (xs ++ rest) = Except.ok (xs, rest) := by
  rw [readBytes, if_pos (by simp), List.take_left, List.drop_left]

theorem readBytes_short (k : Nat) (b : List Nat) (h : b.length < k) :
    readBytes k b = Except.error BErr.eof := by
  rw [readBytes, if_neg (by omega)]

theorem readUle_le (k n : Nat) (rest : List Nat) :
    readUle k (leBytes k n ++ rest) = Except.ok (n % 256 ^ k, rest) := by
  rw [readUle]
  have h := readBytes_exact (leBytes k n) rest
  rw [length_leBytes] at h
  rw [h]
  show Except.ok (leVal (leBytes k n), rest) = _
  rw [leVal_leBytes]

theorem readUle_short (k : Nat) (b : List Nat) (h : b.length < k) :
    readUle k b = Except.error BErr.eof := by
  rw [readUle, readBytes_short k b h]

theorem length_encHeader (h : TsHeader) : (encHeader h).length = 9 := by
  simp [encHeader, length_leBytes]

theorem decHeader_enc (h : TsHeader) (rest : List Nat)
    (hb : h.byte < 2 ^ 8) (hsz : h.size < 2 ^ 64) :
    decHeader (encHeader h ++ rest) = Except.ok (h, rest) := by
  have h1 : h.byte % 256 ^ 1 = h.byte :=
    Nat.mod_eq_of_lt (by norm_num at hb ⊢; omega)
  have h2 : h.size % 256 ^ 8 = h.size :=
    Nat.mod_eq_of_lt (by norm_num at hsz ⊢; omega)
  rw [decHeader, encHeader, List.append_assoc]
  simp only [readUle_le, h1, h2]

theorem decString_enc (s : List Nat) (rest : List Nat)
    (hlen : s.length < 2 ^ 64) :
    decString (encString s ++ rest) = Except.ok (s, rest) := by
  have h1 : s.length % 256 ^ 8 = s.length :=
    Nat.mod_eq_of_lt (by norm_num at hlen ⊢; omega)
  rw [decString, encString, List.append_assoc]
  simp only [readUle_le, h1, readBytes_exact]

theorem decI32_enc (z : Int) (rest : List Nat)
    (h1 : -2 ^ 31 ≤ z) (h2 : z < 2 ^ 31) :
    decI32 (encI32 z ++ rest) = Except.ok (z, rest) := by
  have hm : (z % 2 ^ 32).toNat % 256 ^ 4 = (z % 2 ^ 32).toNat :=
    Nat.mod_eq_of_lt (by norm_num; omega)
  have hval : (if (z % 2 ^ 32).toNat < 2 ^ 31 then
      ((z % 2 ^ 32).toNat : Int)
    else ((z % 2 ^ 32).toNat : Int) - 2 ^ 32) = z := by
    split <;> omega
  rw [decI32, encI32]
  simp only [readUle_le, hm, hval]

theorem decCreate_enc (p : TsCreate) (rest : List Nat)
    (hn : p.name.length < 2 ^ 64)
    (h1 : -2 ^ 31 ≤ p.retention) (h2 : p.retention < 2 ^ 31) :
    decCreate (encCreate p ++ rest) = Except.ok (p, rest) := by
  rw [decCreate, encCreate, List.append_assoc]
  simp only [decString_enc _ _ hn, decI32_enc _ _ h1 h2]

theorem decDelete_enc (p : TsDelete) (rest : List Nat)
    (hn : p.name.length < 2 ^ 64) :
    decDelete (encDelete p ++ rest) = Except.ok (p, rest) := by
  rw [decDelete, encDelete]
  simp only [decString_enc _ _ hn]

theorem decAddPoint_enc (p : TsAddPoint) (rest : List Nat)
    (hn : p.name.length < 2 ^ 64) (hv : p.value < 2 ^ 64) :
    decAddPoint (encAddPoint p ++ rest) = Except.ok (p, rest) := by
  have hm : p.value % 256 ^ 8 = p.value :=
    Nat.mod_eq_of_lt (by norm_num at hv ⊢; omega)
  rw [decAddPoint, encAddPoint, List.append_assoc]
  simp only [decString_enc _ _ hn, readUle_le, hm]

theorem readVals_enc (vs : List Nat) (rest : List Nat)
    (hv : ∀ v ∈ vs, v < 2 ^ 64) :
    readVals vs.length ((vs.map (leBytes 8)).flatten ++ rest) =
      Except.ok (vs, rest) := by
  induction vs with
  | nil => simp [readVals]
  | cons v vs ih =>
    have hm : v % 256 ^ 8 = v :=
      Nat.mod_eq_of_lt (by
        have := hv v (by simp)
        norm_num at this ⊢
        omega)
    rw [List.length_cons, List.map_cons, List.flatten_cons, List.append_assoc,
      readVals]
    simp only [readUle_le, hm, ih (fun x hx => hv x (by simp [hx]))]

theorem decMaddPoint_enc (p : TsMaddPoint) (rest : List Nat)
    (hn : p.name.length < 2 ^ 64) (hl : p.values.length < 2 ^ 64)
    (hv : ∀ v ∈ p.values, v < 2 ^ 64) :
    decMaddPoint (encMaddPoint p ++ rest) = Except.ok (p, rest) := by
  have hm : p.values.length % 256 ^ 8 = p.values.length :=
    Nat.mod_eq_of_lt (by norm_num at hl ⊢; omega)
  rw [decMaddPoint, encMaddPoint, List.append_assoc, List.append_assoc]
  simp only [decString_enc _ _ hn, readUle_le, hm, readVals_enc _ _ hv]

theorem decQueryKind_enc (k : QueryKind) (rest : List Nat)
    (hk : match k with
      | QueryKind.avgWindow i => i < 2 ^ 64
      | QueryKind.range lo hi => lo < 2 ^ 64 ∧ hi < 2 ^ 64) :
    decQueryKind (encQueryKind k ++ rest) = Except.ok (k, rest) := by
  cases k with
  | avgWindow i =>
    have hm : i % 256 ^ 8 = i :=
      Nat.mod_eq_of_lt (by norm_num at hk ⊢; omega)
    rw [decQueryKind, encQueryKind, List.append_assoc]
    simp only [readUle_le, hm]
    norm_num
  | range lo hi =>
    obtain ⟨hlo, hhi⟩ := hk
    have hm1 : lo % 256 ^ 8 = lo :=
      Nat.mod_eq_of_lt (by norm_num at hlo ⊢; omega)
    have hm2 : hi % 256 ^ 8 = hi :=
      Nat.mod_eq_of_lt (by norm_num at hhi ⊢; omega)
    rw [decQueryKind, encQueryKind, List.append_assoc, List.append_assoc]
    simp only [readUle_le, hm1, hm2]
    norm_num

theorem decQuery_enc (p : TsQuery) (rest : List Nat)
    (hn : p.name.length < 2 ^ 64)
    (hk : match p.kind with
      | QueryKind.avgWindow i => i < 2 ^ 64
      | QueryKind.range lo hi => lo < 2 ^ 64 ∧ hi < 2 ^ 64) :
    decQuery (encQuery p ++ rest) = Except.ok (p, rest) := by
  rw [decQuery, encQuery, List.append_assoc]
  simp only [decString_enc _ _ hn, decQueryKind_enc _ _ hk]

/-- Completing `from_binary` on a well-formed frame: once the payload
decoder accepts the payload bytes, the whole frame decodes to the
original packet. -/
theorem from_binary_complete {α : Type}
    (dec : List Nat → Except BErr (α × List Nat)) (h : TsHeader)
    (P : List Nat) (v : α) (rest : List Nat)
    (hb : h.byte < 2 ^ 8) (hsz : h.size < 2 ^ 64)
    (hdec : dec P = Except.ok (v, rest)) :
    from_binary dec (encHeader h ++ P) = Except.ok ⟨h, v⟩ := by
  have hlen : (encHeader h ++ P).length = 9 + P.length := by
    simp [length_encHeader]
  rw [from_binary, if_neg (by omega)]
  have htake : (encHeader h ++ P).take 9 = encHeader h :=
    List.take_left' (length_encHeader h)
  have hdrop : (encHeader h ++ P).drop 9 = P :=
    List.drop_left' (length_encHeader h)
  rw [htake, hdrop]
  have hh := decHeader_enc h [] hb hsz
  rw [List.append_nil] at hh
  rw [hh, hdec]

/-- C5: the command round-trip law.  For every command variant
(Create/Delete from the source's payload structs; AddPoint,
MultiAddPoint and Query modelled from the spec's §6 wire shapes) and
every field-width-valid header and payload — arbitrary names including
the empty string, arbitrary retentions and float bit patterns,
zero-length multi-add sequences — decoding the encoding returns the
original packet: `from_binary (to_binary p) = Ok p`. -/
theorem c5_roundtrip (h : TsHeader) (c : TsCommand)
    (hh : validHeader h) (hc : validCmd c) :
    from_binary (cmdDecoder (cmdTag c)) (to_binary encCmd ⟨h, c⟩) =
      Except.ok ⟨h, c⟩ := by
  obtain ⟨hb, hs⟩ := hh
  rw [to_binary]
  cases c with
  | create p =>
    obtain ⟨hn, h1, h2⟩ := hc
    apply from_binary_complete _ _ _ _ [] hb hs
    have hd := decCreate_enc p [] hn h1 h2
    rw [List.append_nil] at hd
    show (match decCreate (encCmd (TsCommand.create p)) with
      | Except.error e => Except.error e
      | Except.ok (p, r) => Except.ok (TsCommand.create p, r)) = _
    rw [show encCmd (TsCommand.create p) = encCreate p from rfl, hd]
  | delete p =>
    apply from_binary_complete _ _ _ _ [] hb hs
    have hd := decDelete_enc p [] hc
    rw [List.append_nil] at hd
    show (match decDelete (encCmd (TsCommand.delete p)) with
      | Except.error e => Except.error e
      | Except.ok (p, r) => Except.ok (TsCommand.delete p, r)) = _
    rw [show encCmd (TsCommand.delete p) = encDelete p from rfl, hd]
  | addPoint p =>
    obtain ⟨hn, hv⟩ := hc
    apply from_binary_complete _ _ _ _ [] hb hs
    have hd := decAddPoint_enc p [] hn hv
    rw [List.append_nil] at hd
    show (match decAddPoint (encCmd (TsCommand.addPoint p)) with
      | Except.error e => Except.error e
      | Except.ok (p, r) => Except.ok (TsCommand.addPoint p, r)) = _
    rw [show encCmd (TsCommand.addPoint p) = encAddPoint p from rfl, hd]
  | maddPoint p =>
    obtain ⟨hn, hl, hv⟩ := hc
    apply from_binary_complete _ _ _ _ [] hb hs
    have hd := decMaddPoint_enc p [] hn hl hv
    rw [List.append_nil] at hd
    show (match decMaddPoint (encCmd (TsCommand.maddPoint p)) with
      | Except.error e => Except.error e
      | Except.ok (p, r) => Except.ok (TsCommand.maddPoint p, r)) = _
    rw [show encCmd (TsCommand.maddPoint p) = encMaddPoint p from rfl, hd]
  | query p =>
    obtain ⟨hn, hk⟩ := hc
    apply from_binary_complete _ _ _ _ [] hb hs
    have hd := decQuery_enc p [] hn hk
    rw [List.append_nil] at hd
    show (match decQuery (encCmd (TsCommand.query p)) with
      | Except.error e => Except.error e
      | Except.ok (p, r) => Except.ok (TsCommand.query p, r)) = _
    rw [show encCmd (TsCommand.query p) = encQuery p from rfl, hd]

/-- Witness for C5 at a concrete Create command. -/
theorem c5_roundtrip_witness :
    from_binary (cmdDecoder (cmdTag (TsCommand.create ⟨[116, 115], 3000⟩)))
      (to_binary encCmd ⟨⟨0, 10⟩, TsCommand.create ⟨[116, 115], 3000⟩⟩) =
      Except.ok ⟨⟨0, 10⟩, TsCommand.create ⟨[116, 115], 3000⟩⟩ :=
  c5_roundtrip ⟨0, 10⟩ (TsCommand.create ⟨[116, 115], 3000⟩)
    ⟨by norm_num, by norm_num⟩ ⟨by norm_num, by norm_num, by norm_num⟩

/-! ## Truncated frames -/

theorem length_encString (s : List Nat) :
    (encString s).length = 8 + s.length := by
  simp [encString, length_leBytes]

theorem length_encI32 (z : Int) : (encI32 z).length = 4 := by
  simp [encI32, length_leBytes]

theorem length_encCreate (p : TsCreate) :
    (encCreate p).length = 8 + p.name.length + 4 := by
  simp [encCreate, length_encString, length_encI32]

/-- Reading a length-prefixed string from a truncated byte sequence:
with fewer bytes than the prefix announces the read fails with EOF;
with at least the announced bytes it consumes the string and leaves the
truncated remainder. -/
theorem decString_take (s suffix : List Nat) (hn : s.length < 2 ^ 64)
    (j : Nat) :
    (j < 8 + s.length →
      decString (List.take j (encString s ++ suffix)) =
        Except.error BErr.eof) ∧
    (8 + s.length ≤ j →
      decString (List.take j (encString s ++ suffix)) =
        Except.ok (s, suffix.take (j - (8 + s.length)))) := by
  have hE : encString s ++ suffix = leBytes 8 s.length ++ (s ++ suffix) := by
    rw [encString, List.append_assoc]
  have hmod : s.length % 256 ^ 8 = s.length :=
    Nat.mod_eq_of_lt (by norm_num at hn ⊢; omega)
  constructor
  · intro hj
    by_cases h8 : j < 8
    · have hshort : (List.take j (leBytes 8 s.length ++ (s ++ suffix))).length
          < 8 := by
        rw [List.length_take]
        omega
      rw [hE, decString, readUle_short 8 _ hshort]
    · have ht : List.take j (leBytes 8 s.length ++ (s ++ suffix)) =
          leBytes 8 s.length ++ List.take (j - 8) (s ++ suffix) := by
        rw [List.take_append_eq_append_take,
          List.take_of_length_le (by rw [length_leBytes]; omega),
          length_leBytes]
      have hshort : (List.take (j - 8) (s ++ suffix)).length < s.length := by
        rw [List.length_take]
        simp only [List.length_append]
        omega
      rw [hE, decString, ht]
      simp only [readUle_le, hmod, readBytes_short _ _ hshort]
  · intro hj
    have ht : List.take j (leBytes 8 s.length ++ (s ++ suffix)) =
        leBytes 8 s.length ++ (s ++ List.take (j - 8 - s.length) suffix) := by
      rw [List.take_append_eq_append_take,
        List.take_of_length_le (show (leBytes 8 s.length).length ≤ j by
          rw [length_leBytes]; omega),
        length_leBytes, List.take_append_eq_append_take,
        List.take_of_length_le (show s.length ≤ j - 8 by omega)]
    rw [hE, decString, ht]
    simp only [readUle_le, hmod, readBytes_exact]
    have : j - 8 - s.length = j - (8 + s.length) := by omega
    rw [this]

/-- Any strict truncation of an encoded `TsCreate` payload fails with
EOF: inside the name length, inside the name bytes, or inside the
retention field. -/
theorem decCreate_trunc (p : TsCreate) (hn : p.name.length < 2 ^ 64) :
    ∀ j, j < (encCreate p).length →
      decCreate (List.take j (encCreate p)) = Except.error BErr.eof := by
  intro j hj
  rw [length_encCreate] at hj
  by_cases hcase : j < 8 + p.name.length
  · simp only [decCreate, encCreate,
      (decString_take p.name (encI32 p.retention) hn j).1 hcase]
  · have h2 := (decString_take p.name (encI32 p.retention) hn j).2 (by omega)
    have h3 : (List.take (j - (8 + p.name.length))
        (encI32 p.retention)).length < 4 := by
      rw [List.length_take, length_encI32]
      omega
    simp only [decCreate, encCreate, h2, decI32, readUle_short _ _ h3]

/-- Any strict truncation of an encoded `TsDelete` payload fails with
EOF. -/
theorem decDelete_trunc (p : TsDelete) (hn : p.name.length < 2 ^ 64) :
    ∀ j, j < (encDelete p).length →
      decDelete (List.take j (encDelete p)) = Except.error BErr.eof := by
  intro j hj
  rw [encDelete, length_encString] at hj
  have happ : encDelete p = encString p.name ++ [] := by
    rw [encDelete, List.append_nil]
  simp only [decDelete, happ, (decString_take p.name [] hn j).1 hj]

theorem from_binary_short {α : Type}
    (dec : List Nat → Except BErr (α × List Nat)) (b : List Nat)
    (h : b.length < 9) :
    from_binary dec b = Except.error DecErr.notEnoughBytes := by
  rw [from_binary, if_pos h]

/-- Any strict prefix of a well-formed frame decodes to a
"need more bytes"-class outcome: the short-header guard below 9 bytes,
and bincode EOF on a truncated payload. -/
theorem from_binary_take {α : Type}
    (dec : List Nat → Except BErr (α × List Nat)) (h : TsHeader)
    (P : List Nat) (hb : h.byte < 2 ^ 8) (hsz : h.size < 2 ^ 64)
    (htrunc : ∀ j, j < P.length →
      dec (List.take j P) = Except.error BErr.eof) :
    ∀ k, k < (encHeader h ++ P).length →
      needMore (from_binary dec (List.take k (encHeader h ++ P))) := by
  intro k hk
  rw [List.length_append, length_encHeader] at hk
  by_cases h9 : k < 9
  · left
    apply from_binary_short
    rw [List.length_take]
    simp only [List.length_append, length_encHeader]
    omega
  · right
    have ht : List.take k (encHeader h ++ P) =
        encHeader h ++ List.take (k - 9) P := by
      rw [List.take_append_eq_append_take,
        List.take_of_length_le (by rw [length_encHeader]; omega),
        length_encHeader]
    have hlen : (encHeader h ++ List.take (k - 9) P).length =
        9 + (List.take (k - 9) P).length := by
      simp [length_encHeader]
    rw [ht, from_binary, if_neg (by rw [hlen]; omega)]
    have htake9 : (encHeader h ++ List.take (k - 9) P).take 9 = encHeader h :=
      List.take_left' (length_encHeader h)
    have hdrop9 : (encHeader h ++ List.take (k - 9) P).drop 9 =
        List.take (k - 9) P :=
      List.drop_left' (length_encHeader h)
    have hh := decHeader_enc h [] hb hsz
    rw [List.append_nil] at hh
    simp only [htake9, hdrop9, hh, htrunc (k - 9) (by omega)]

/-- C6 (amended): `from_binary` treats any input of fewer than 9 bytes
as the distinct "Not enough bytes" outcome; every strict prefix of a
well-formed Create or Delete frame decodes to a need-more-bytes-class
outcome (short-header guard or bincode EOF), never a malformed verdict
and never a panic; and the complete frame decodes successfully.  (The
header's declared `size` field is ignored by `from_binary`, so
"shorter than the declared frame length" only holds in the sense of
the payload's own length prefixes — see the counterexample.) -/
theorem c6_truncated_frames :
    (∀ b : List Nat, b.length < 9 →
      from_binary decCreate b = Except.error DecErr.notEnoughBytes) ∧
    (∀ (h : TsHeader) (p : TsCreate), validHeader h →
      p.name.length < 2 ^ 64 → -2 ^ 31 ≤ p.retention →
      p.retention < 2 ^ 31 →
      (∀ k, k < (to_binary encCreate ⟨h, p⟩).length →
        needMore (from_binary decCreate
          (List.take k (to_binary encCreate ⟨h, p⟩)))) ∧
      from_binary decCreate (to_binary encCreate ⟨h, p⟩) =
        Except.ok ⟨h, p⟩) ∧
    (∀ (h : TsHeader) (p : TsDelete), validHeader h →
      p.name.length < 2 ^ 64 →
      (∀ k, k < (to_binary encDelete ⟨h, p⟩).length →
        needMore (from_binary decDelete
          (List.take k (to_binary encDelete ⟨h, p⟩)))) ∧
      from_binary decDelete (to_binary encDelete ⟨h, p⟩) =
        Except.ok ⟨h, p⟩) := by
  refine ⟨fun b hb => from_binary_short decCreate b hb, ?_, ?_⟩
  · intro h p hh hn h1 h2
    obtain ⟨hbyte, hsize⟩ := hh
    constructor
    · intro k hk
      rw [to_binary] at hk ⊢
      exact from_binary_take decCreate h (encCreate p) hbyte hsize
        (decCreate_trunc p hn) k hk
    · rw [to_binary]
      have hd := decCreate_enc p [] hn h1 h2
      rw [List.append_nil] at hd
      exact from_binary_complete decCreate h (encCreate p) p [] hbyte hsize
        (by rw [hd])
  · intro h p hh hn
    obtain ⟨hbyte, hsize⟩ := hh
    constructor
    · intro k hk
      rw [to_binary] at hk ⊢
      exact from_binary_take decDelete h (encDelete p) hbyte hsize
        (decDelete_trunc p hn) k hk
    · rw [to_binary]
      have hd := decDelete_enc p [] hn
      rw [List.append_nil] at hd
      exact from_binary_complete decDelete h (encDelete p) p [] hbyte hsize
        (by rw [hd])

/-- Witness for C6 at a concrete truncated Delete frame. -/
theorem c6_truncated_frames_witness :
    needMore (from_binary decDelete
      (List.take 10 (to_binary encDelete ⟨⟨16, 10⟩, ⟨[104, 105]⟩⟩))) :=
  (c6_truncated_frames.2.2 ⟨16, 10⟩ ⟨[104, 105]⟩
    ⟨by norm_num, by norm_num⟩ (by norm_num)).1 10 (by decide)

/-- C6 (counterexample): the header's declared payload size is ignored.
This frame declares `size = 100` but carries only the 8 payload bytes
of `Delete { name: "" }`; by the claim it should be a "need more
bytes" outcome, yet `from_binary` decodes it successfully. -/
theorem c6_counterexample :
    from_binary decDelete (encHeader ⟨16, 100⟩ ++ leBytes 8 0) =
      Except.ok ⟨⟨16, 100⟩, ⟨[]⟩⟩ ∧
      (encHeader ⟨16, 100⟩ ++ leBytes 8 0).length - 9 < 100 := by
  constructor
  · decide
  · decide
